import Mathlib

/-!
Verification of the SPSC block FIFO queue `Common::FifoQueue<T, NeedSize>`
from `Source/Core/Common/FifoQueue.h`.

The queue is a singly linked chain of fixed-capacity blocks of `N` element
slots (`N = nelems`, a power of two chosen from `sizeof(T)`), with a
consumer-owned `head` cursor, a producer-owned atomic `tail` cursor, and a
consumer-private `tail_cache`.  Both cursors start at 1.

Modelling decisions (shallow embedding, single-threaded semantics):
* a slot holds `none` while its storage is uninitialized (`malloc` does not
  initialize memory), and `some v` once the producer placement-constructed
  `v` there;
* a block's `next` pointer is likewise uninitialized at allocation; the
  field `nextWritten` records whether the producer has ever stored to it.
  The source only ever stores a pointer to a freshly allocated successor,
  never null, so a written `next` always designates the next entry of the
  chain list;
* the live chain from `head_block` (first entry) to `tail_block` (last
  entry) is the list `blocks`; following `head_block->next` is taking the
  tail of that list, and freeing a block is dropping it from the list;
* machine arithmetic: cursors are `size_t`; they only grow, and reachable
  states keep `head ≤ tail`, so `tail - head` never wraps and `Nat`
  subtraction models it exactly.
-/

namespace Common

/-- Model of `queue_block`: the array `elems[nelems]` of element slots plus
the `next` pointer.  `none` marks a slot whose storage was never
constructed; `nextWritten` records whether `next.store` was ever executed
on this block (a freshly malloc'd block has an indeterminate, unwritten
`next`). -/
structure Blk (α : Type) where
  elems : List (Option α)
  nextWritten : Bool
deriving DecidableEq

/-- Model of the `FifoQueue` state: the live block chain from `head_block`
(first entry) to `tail_block` (last entry), and the three cursors.  `tail`
is the atomic the producer publishes with a release store. -/
structure FifoQueue (α : Type) where
  blocks : List (Blk α)
  head : Nat
  tail : Nat
  tail_cache : Nat
deriving DecidableEq

variable {α : Type}

/-- Model of `get_block()`: `malloc` returns a block with every slot and
the `next` pointer uninitialized. -/
def freshBlock (α : Type) (N : Nat) : Blk α :=
  ⟨List.replicate N none, false⟩

/-- Model of `init()`: one freshly allocated block serves as both
`head_block` and `tail_block`, and `head = tail = tail_cache = 1`. -/
def initState (α : Type) (N : Nat) : FifoQueue α :=
  ⟨[freshBlock α N], 1, 1, 1⟩

/-- Apply `f` to the last entry of the chain: an update made through the
`tail_block` pointer. -/
def setLast (f : Blk α → Blk α) : List (Blk α) → List (Blk α)
  | [] => []
  | [b] => [f b]
  | b :: bs => b :: setLast f bs

/-- Placement-construct `v` at `elems[i]` of a block. -/
def writeSlot (i : Nat) (v : α) (b : Blk α) : Blk α :=
  ⟨b.elems.set i (some v), b.nextWritten⟩

/-- The store `tail_block->next.store(nb)`: marks the block's `next`
pointer as written; in the chain-list representation the successor it
points to is the entry appended right after it. -/
def linkNext (b : Blk α) : Blk α :=
  ⟨b.elems, true⟩

/-- Model of `Push`: load `tail` (relaxed) into `ctail`, compute the
in-block index `cind = ctail & nmod` (`nmod = nelems - 1`); if `cind` is 0,
allocate a fresh block, store the old `tail_block->next` and advance
`tail_block`; placement-construct the value at `tail_block->elems[cind]`;
release-store `tail = ctail + 1`. -/
def Push (N : Nat) (v : α) (q : FifoQueue α) : FifoQueue α :=
  let ctail := q.tail
  let cind := ctail &&& (N - 1)
  let blocks :=
    if cind = 0 then setLast linkNext q.blocks ++ [freshBlock α N]
    else q.blocks
  ⟨setLast (writeSlot cind v) blocks, q.head, ctail + 1, q.tail_cache⟩

/-- Model of `dopop`, the shared body of `Pop()` and `Pop(T&)`.  Result:
the returned flag, the value delivered to the out parameter (`none` when
nothing was written to it), and the new state.  On the empty path only
`tail_cache` is refreshed from `tail`.  On the success path: `head` is
incremented; if `hind = chead & nmod` is 0 the consumer advances
`head_block` to `head_block->next` and frees the old block (drops the first
chain entry); the element is read from `head_block->elems[hind]` and either
moved into the out parameter (`docreate`) or destroyed in place. -/
def dopop (N : Nat) (q : FifoQueue α) : Bool × Option α × FifoQueue α :=
  let chead := q.head
  let tc := if chead = q.tail_cache then q.tail else q.tail_cache
  if chead = tc then
    (false, none, ⟨q.blocks, q.head, q.tail, tc⟩)
  else
    let hind := chead &&& (N - 1)
    let blocks := if hind = 0 then q.blocks.tail else q.blocks
    let curv := (blocks.headD (freshBlock α N)).elems.getD hind none
    (true, curv, ⟨blocks, chead + 1, q.tail, tc⟩)

/-- Model of `Pop()`: `dopop<false>`; the element is destroyed in place and
no value is delivered. -/
def Pop (N : Nat) (q : FifoQueue α) : Bool × FifoQueue α :=
  ((dopop N q).1, (dopop N q).2.2)

/-- Model of `Pop(T& t)`: `dopop<true>`; on success the element is moved
into the out parameter. -/
def PopOut (N : Nat) (q : FifoQueue α) : Bool × Option α × FifoQueue α :=
  dopop N q

/-- Model of `Front()`: `head_block->elems[head & nmod]`, with no emptiness
or block-boundary check. -/
def Front (N : Nat) (q : FifoQueue α) : Option α :=
  (q.blocks.headD (freshBlock α N)).elems.getD (q.head &&& (N - 1)) none

/-- Model of `Size()`: relaxed load of `tail`, minus `head`.  The class
also takes the template parameter `NeedSize` (default `true`); the source
never references it in the class body, so it is accepted here and ignored
in the same way. -/
def Size (needSize : Bool) (q : FifoQueue α) : Nat :=
  q.tail - q.head

/-- Model of `Empty()`: `Size() == 0`. -/
def Empty (needSize : Bool) (q : FifoQueue α) : Bool :=
  Size needSize q == 0

/-- The `while (Pop());` drain loop of `destroy()`, with explicit fuel; the
loop stops at the first `Pop` that returns false.  `destroy` supplies
enough fuel for `tail - head` successful pops followed by the one failing
pop that ends the loop. -/
def drainPop (N : Nat) : Nat → FifoQueue α → FifoQueue α
  | 0, q => q
  | f + 1, q =>
    let r := dopop N q
    if r.1 then drainPop N f r.2.2 else r.2.2

/-- The block walk of `destroy()`: while `head_block` is non-null, load
`head_block->next` (relaxed) and free the old `head_block`.  Loading the
`next` pointer of a block whose `next` was never stored reads
uninitialized memory: the walk's outcome is then undefined, modelled as
`none`.  Otherwise the result counts the blocks freed, each dropped from
the chain exactly once. -/
def freeWalk : List (Blk α) → Option Nat
  | [] => some 0
  | b :: bs =>
    if b.nextWritten then (freeWalk bs).map (fun n => n + 1) else none

/-- Model of `destroy()`: drain all remaining elements via the pop path,
then walk the block chain from `head_block` freeing each block.  Result:
the number of blocks the walk freed, or `none` when the walk read an
uninitialized `next` pointer. -/
def destroy (N : Nat) (q : FifoQueue α) : Option Nat :=
  freeWalk (drainPop N (q.tail - q.head + 1) q).blocks

/-- Model of `Clear()`: `destroy()` followed by `init()`.  First component:
the outcome of destroy's block walk; second component: the state `init`
rebuilds (one fresh block, all cursors 1) — `init` assigns every field of
the object, so the rebuilt state does not depend on the drained one. -/
def Clear (N : Nat) (q : FifoQueue α) : Option Nat × FifoQueue α :=
  (destroy N q, initState α N)

/-- Push each value of `vs` in order. -/
def pushAll (N : Nat) (q : FifoQueue α) (vs : List α) : FifoQueue α :=
  vs.foldl (fun q v => Push N v q) q

/-- Call `dopop` `n` times, collecting each call's returned flag and
delivered value together with the final state. -/
def popTimes (N : Nat) : Nat → FifoQueue α → List (Bool × Option α) × FifoQueue α
  | 0, q => ([], q)
  | n + 1, q =>
    let r := dopop N q
    let rest := popTimes N n r.2.2
    ((r.1, r.2.1) :: rest.1, rest.2)

/-- Read the slot reached by following the `next` chain `h` hops from
`head_block` and indexing the reached block at offset `o`. -/
def chainRead (q : FifoQueue α) (h o : Nat) : Option α :=
  q.blocks[h]?.bind (fun b => b.elems.getD o none)

/-- Chain shape left by the producer: the chain is non-empty, every block
before the last has had its `next` pointer stored, and the last block
(`tail_block`) still has an unwritten `next`. -/
def NextOk : List (Blk α) → Prop
  | [] => False
  | [b] => b.nextWritten = false
  | b :: bs => b.nextWritten = true ∧ NextOk bs

/-- Representation invariant tying a queue state to its logical content
`vs` (the live elements, oldest first; the element `vs[j]` was pushed at
absolute index `head + j`). -/
structure Inv (N : Nat) (q : FifoQueue α) (vs : List α) : Prop where
  head_pos : 1 ≤ q.head
  head_le_cache : q.head ≤ q.tail_cache
  cache_le_tail : q.tail_cache ≤ q.tail
  len_eq : q.head + vs.length = q.tail
  blocks_len : q.blocks.length = (q.tail - 1) / N - (q.head - 1) / N + 1
  elems_len : ∀ b ∈ q.blocks, b.elems.length = N
  next_ok : NextOk q.blocks
  content : ∀ j v, vs[j]? = some v →
    chainRead q ((q.head + j) / N - (q.head - 1) / N) ((q.head + j) % N) = some v

/-- States reachable from construction by `Push`, `Pop`/`Pop(out)` and
`Clear`, together with the logical content of the queue (`Pop` removes the
oldest element when one exists; popping an empty queue leaves the content
empty, which `List.tail` covers uniformly). -/
inductive Reachable (α : Type) (N : Nat) : FifoQueue α → List α → Prop
  | init : Reachable α N (initState α N) []
  | push (v : α) {q : FifoQueue α} {vs : List α} :
      Reachable α N q vs → Reachable α N (Push N v q) (vs ++ [v])
  | pop {q : FifoQueue α} {vs : List α} :
      Reachable α N q vs → Reachable α N (dopop N q).2.2 vs.tail
  | clear {q : FifoQueue α} {vs : List α} :
      Reachable α N q vs → Reachable α N (Clear N q).2 []

/-- With a power-of-two capacity the bitmask `i & (N - 1)` computes
`i % N`, as the source's `nmod` relies on. -/
theorem mask_eq_mod (k x : Nat) : x &&& (2 ^ k - 1) = x % 2 ^ k :=
  Nat.and_pow_two_sub_one_eq_mod x k

/-- A cursor sitting exactly on a block boundary (`i % N = 0`) has a block
number one past its predecessor's. -/
theorem div_pred_succ {i N : Nat} (hi : 1 ≤ i) (h : i % N = 0) :
    i / N = (i - 1) / N + 1 := by
  obtain ⟨m, rfl⟩ : ∃ m, i = m + 1 := ⟨i - 1, by omega⟩
  rw [Nat.succ_div, if_pos (Nat.dvd_iff_mod_eq_zero.mpr h)]
  simp

/-- A cursor not on a block boundary shares its block number with its
predecessor. -/
theorem div_pred_eq {i N : Nat} (hi : 1 ≤ i) (h : i % N ≠ 0) :
    (i - 1) / N = i / N := by
  obtain ⟨m, rfl⟩ : ∃ m, i = m + 1 := ⟨i - 1, by omega⟩
  rw [Nat.succ_div, if_neg (fun hd => h (Nat.dvd_iff_mod_eq_zero.mp hd))]
  simp

/-- Updating through the `tail_block` pointer updates the last chain
entry. -/
theorem setLast_concat (f : Blk α → Blk α) :
    ∀ (bs : List (Blk α)) (b : Blk α), setLast f (bs ++ [b]) = bs ++ [f b]
  | [], _ => rfl
  | [_], _ => rfl
  | a :: c :: bs, b => by
    show a :: setLast f ((c :: bs) ++ [b]) = a :: ((c :: bs) ++ [f b])
    rw [setLast_concat f (c :: bs) b]

/-- Characterisation of the producer's chain shape over an explicit last
block. -/
theorem nextOk_concat :
    ∀ (bs : List (Blk α)) (b : Blk α),
      NextOk (bs ++ [b]) ↔ (∀ x ∈ bs, x.nextWritten = true) ∧ b.nextWritten = false
  | [], b => by simp [NextOk]
  | [a], b => by simp [NextOk]
  | a :: c :: bs, b => by
    have ih := nextOk_concat (c :: bs) b
    simp only [List.cons_append] at ih ⊢
    rw [show NextOk (a :: c :: (bs ++ [b])) ↔
          (a.nextWritten = true ∧ NextOk (c :: (bs ++ [b]))) from Iff.rfl]
    rw [ih]
    simp only [List.forall_mem_cons]
    tauto

/-- A chain satisfying the producer's shape is non-empty, hence splits off
a last block. -/
theorem nextOk_split {l : List (Blk α)} (h : NextOk l) :
    ∃ bs b, l = bs ++ [b] := by
  rcases List.eq_nil_or_concat l with rfl | ⟨bs, b, rfl⟩
  · exact absurd h (by simp [NextOk])
  · exact ⟨bs, b, by simp⟩

/-- Dropping the head block preserves the chain shape when at least one
block follows it. -/
theorem nextOk_tail {a c : Blk α} {l : List (Blk α)} (h : NextOk (a :: c :: l)) :
    NextOk (c :: l) := h.2

/-- Construction establishes the invariant with empty content (any block
capacity). -/
theorem inv_init (N : Nat) : Inv N (initState α N) [] := by
  refine ⟨le_refl 1, le_refl 1, le_refl 1, rfl, ?_, ?_, ?_, ?_⟩
  · simp [initState]
  · intro b hb
    simp [initState, freshBlock] at hb
    simp [hb, freshBlock]
  · simp [initState, NextOk, freshBlock]
  · intro j v hv
    simp at hv

/-- Push preserves the representation invariant and appends the pushed
value to the logical content.  The bitmask hypothesis holds for the
power-of-two capacities the source's get_size selects. -/
theorem inv_push {N : Nat} (hNpos : 0 < N)
    (hmask : ∀ x : Nat, x &&& (N - 1) = x % N)
    {q : FifoQueue α} {vs : List α} (hq : Inv N q vs) (v : α) :
    Inv N (Push N v q) (vs ++ [v]) := by
  obtain ⟨h1, h2, h3, hlen, hblen, helen, hnext, hcont⟩ := hq
  obtain ⟨bs, b, hsplit⟩ := nextOk_split hnext
  have hbmem : b ∈ q.blocks := hsplit ▸ List.mem_append_right _ (by simp)
  have hbN : b.elems.length = N := helen b hbmem
  have hT1 : 1 ≤ q.tail := by omega
  have hd12 : (q.head - 1) / N ≤ (q.tail - 1) / N := Nat.div_le_div_right (by omega)
  rw [hsplit] at hblen
  simp only [List.length_append, List.length_singleton] at hblen
  have hPush : Push N v q =
      ⟨setLast (writeSlot (q.tail % N) v)
        (if q.tail % N = 0 then setLast linkNext q.blocks ++ [freshBlock α N]
         else q.blocks),
       q.head, q.tail + 1, q.tail_cache⟩ := by
    simp only [Push, hmask]
  rw [hPush]
  by_cases hc : q.tail % N = 0
  · -- block-boundary crossing: link the old tail block, append a fresh one,
    -- construct at offset 0 of the fresh block
    rw [if_pos hc, hc, hsplit, setLast_concat, setLast_concat]
    have hdp : q.tail / N = (q.tail - 1) / N + 1 := div_pred_succ hT1 hc
    refine ⟨h1, h2, show q.tail_cache ≤ q.tail + 1 by omega, ?_, ?_, ?_, ?_, ?_⟩
    · show q.head + (vs ++ [v]).length = q.tail + 1
      simp only [List.length_append, List.length_singleton]
      omega
    · show ((bs ++ [linkNext b]) ++ [writeSlot 0 v (freshBlock α N)]).length
        = (q.tail + 1 - 1) / N - (q.head - 1) / N + 1
      simp only [List.length_append, List.length_singleton, Nat.add_sub_cancel]
      omega
    · intro x hx
      simp only [List.append_assoc, List.mem_append, List.mem_singleton] at hx
      rcases hx with hx | hx | hx
      · exact helen x (hsplit ▸ List.mem_append_left _ hx)
      · subst hx
        exact hbN
      · subst hx
        simp [writeSlot, freshBlock]
    · show NextOk ((bs ++ [linkNext b]) ++ [writeSlot 0 v (freshBlock α N)])
      rw [nextOk_concat]
      have hold := (nextOk_concat bs b).mp (hsplit ▸ hnext)
      refine ⟨?_, rfl⟩
      intro x hx
      rcases List.mem_append.mp hx with hx | hx
      · exact hold.1 x hx
      · simp at hx
        subst hx
        rfl
    · intro j w hj
      rw [List.getElem?_append] at hj
      split at hj
      · -- a previously pushed element keeps its slot
        rename_i hlt
        have hold := hcont j w hj
        simp only [chainRead] at hold ⊢
        -- projections already reduced
        rw [hsplit] at hold
        have hi : q.head + j ≤ q.tail - 1 := by omega
        have hm1 : (q.head - 1) / N ≤ (q.head + j) / N :=
          Nat.div_le_div_right (by omega)
        have hm2 : (q.head + j) / N ≤ (q.tail - 1) / N := Nat.div_le_div_right hi
        rcases Nat.lt_or_ge ((q.head + j) / N - (q.head - 1) / N) bs.length with hop | hop
        · rw [List.getElem?_append, if_pos hop] at hold
          rw [List.append_assoc, List.getElem?_append, if_pos hop]
          exact hold
        · have hopeq : (q.head + j) / N - (q.head - 1) / N = bs.length := by omega
          rw [hopeq] at hold ⊢
          rw [List.getElem?_concat_length] at hold
          rw [List.append_assoc, List.getElem?_append_right (le_refl _), Nat.sub_self]
          simpa [linkNext] using hold
      · -- the newly pushed element lands at offset 0 of the fresh block
        rename_i hge
        have hgele : vs.length ≤ j := by omega
        rcases Nat.eq_or_lt_of_le hgele with hjeq | hjlt
        · rw [← hjeq, Nat.sub_self] at hj
          rw [show ([v] : List α)[0]? = some v from rfl] at hj
          cases hj
          have hiT : q.head + j = q.tail := by omega
          rw [hiT, hc, hdp]
          simp only [chainRead]
          -- projections already reduced
          have hop : (q.tail - 1) / N + 1 - (q.head - 1) / N = bs.length + 1 := by
            omega
          rw [hop, show bs.length + 1 = (bs ++ [linkNext b]).length by simp,
            List.getElem?_concat_length]
          simp only [Option.some_bind]
          rw [List.getD_eq_getElem?_getD, writeSlot, freshBlock]
          simp only
          rw [List.getElem?_set_self (by simpa using hNpos)]
          rfl
        · obtain ⟨m, hm⟩ : ∃ m, j - vs.length = m + 1 := ⟨j - vs.length - 1, by omega⟩
          rw [hm] at hj
          exact absurd hj (by simp)
  · -- no boundary: construct at offset tail % N of the current tail block
    rw [if_neg hc, hsplit, setLast_concat]
    have hdp : (q.tail - 1) / N = q.tail / N := div_pred_eq hT1 hc
    refine ⟨h1, h2, show q.tail_cache ≤ q.tail + 1 by omega, ?_, ?_, ?_, ?_, ?_⟩
    · show q.head + (vs ++ [v]).length = q.tail + 1
      simp only [List.length_append, List.length_singleton]
      omega
    · show (bs ++ [writeSlot (q.tail % N) v b]).length
        = (q.tail + 1 - 1) / N - (q.head - 1) / N + 1
      simp only [List.length_append, List.length_singleton, Nat.add_sub_cancel]
      omega
    · intro x hx
      rcases List.mem_append.mp hx with hx | hx
      · exact helen x (hsplit ▸ List.mem_append_left _ hx)
      · simp at hx
        subst hx
        simpa [writeSlot] using hbN
    · show NextOk (bs ++ [writeSlot (q.tail % N) v b])
      rw [nextOk_concat]
      have hold := (nextOk_concat bs b).mp (hsplit ▸ hnext)
      exact ⟨hold.1, hold.2⟩
    · intro j w hj
      rw [List.getElem?_append] at hj
      split at hj
      · rename_i hlt
        have hold := hcont j w hj
        simp only [chainRead] at hold ⊢
        -- projections already reduced
        rw [hsplit] at hold
        have hi : q.head + j ≤ q.tail - 1 := by omega
        have hm1 : (q.head - 1) / N ≤ (q.head + j) / N :=
          Nat.div_le_div_right (by omega)
        have hm2 : (q.head + j) / N ≤ (q.tail - 1) / N := Nat.div_le_div_right hi
        rcases Nat.lt_or_ge ((q.head + j) / N - (q.head - 1) / N) bs.length with hop | hop
        · rw [List.getElem?_append, if_pos hop] at hold
          rw [List.getElem?_append, if_pos hop]
          exact hold
        · have hopeq : (q.head + j) / N - (q.head - 1) / N = bs.length := by omega
          rw [hopeq] at hold ⊢
          rw [List.getElem?_concat_length] at hold
          rw [List.getElem?_concat_length]
          simp only [Option.some_bind] at hold ⊢
          have hdiveq : (q.head + j) / N = q.tail / N := by omega
          have hoff : (q.head + j) % N ≠ q.tail % N := by
            intro heq
            have e1 := Nat.div_add_mod (q.head + j) N
            have e2 := Nat.div_add_mod q.tail N
            have : q.head + j = q.tail := by
              rw [← e1, ← e2, hdiveq, heq]
            omega
          rw [List.getD_eq_getElem?_getD] at hold ⊢
          rw [writeSlot]
          simp only
          rw [List.getElem?_set_ne (fun h => hoff h.symm)]
          exact hold
      · rename_i hge
        have hgele : vs.length ≤ j := by omega
        rcases Nat.eq_or_lt_of_le hgele with hjeq | hjlt
        · rw [← hjeq, Nat.sub_self] at hj
          rw [show ([v] : List α)[0]? = some v from rfl] at hj
          cases hj
          have hiT : q.head + j = q.tail := by omega
          rw [hiT]
          simp only [chainRead]
          -- projections already reduced
          have hop : q.tail / N - (q.head - 1) / N = bs.length := by omega
          rw [hop, List.getElem?_concat_length]
          simp only [Option.some_bind]
          rw [List.getD_eq_getElem?_getD, writeSlot]
          simp only
          rw [List.getElem?_set_self (by rw [hbN]; exact Nat.mod_lt _ hNpos)]
          rfl
        · obtain ⟨m, hm⟩ : ∃ m, j - vs.length = m + 1 := ⟨j - vs.length - 1, by omega⟩
          rw [hm] at hj
          exact absurd hj (by simp)


/-- Popping an empty queue under the invariant is a reporting no-op: it
returns false, delivers nothing, and leaves the entire state unchanged
(the tail_cache refresh rewrites the value it already holds). -/
theorem dopop_nil {N : Nat} {q : FifoQueue α} (hq : Inv N q []) :
    dopop N q = (false, none, q) := by
  obtain ⟨h1, h2, h3, hlen, -, -, -, -⟩ := hq
  obtain ⟨blocks, head, tail, tc0⟩ := q
  simp only [List.length_nil, Nat.add_zero] at hlen
  have hht : head = tail := hlen
  have htc : tc0 = head := by
    have hA : head ≤ tc0 := h2
    have hB : tc0 ≤ tail := h3
    omega
  subst hht
  subst htc
  simp [dopop]

/-- Popping a non-empty queue under the invariant succeeds, delivers the
oldest element, and re-establishes the invariant on the remaining
content. -/
theorem dopop_cons {N : Nat}
    (hmask : ∀ x : Nat, x &&& (N - 1) = x % N)
    {q : FifoQueue α} {v : α} {vs : List α} (hq : Inv N q (v :: vs)) :
    (dopop N q).1 = true ∧ (dopop N q).2.1 = some v ∧ Inv N (dopop N q).2.2 vs := by
  obtain ⟨h1, h2, h3, hlen, hblen, helen, hnext, hcont⟩ := hq
  simp only [List.length_cons] at hlen
  have hne : ¬ (q.head = if q.head = q.tail_cache then q.tail else q.tail_cache) := by
    split
    · omega
    · rename_i h
      exact h
  have htcgt : q.head < (if q.head = q.tail_cache then q.tail else q.tail_cache) := by
    split <;> omega
  have htcle : (if q.head = q.tail_cache then q.tail else q.tail_cache) ≤ q.tail := by
    split <;> omega
  have hd12 : (q.head - 1) / N ≤ (q.tail - 1) / N := Nat.div_le_div_right (by omega)
  have hdopop : dopop N q =
      (true,
       ((if q.head % N = 0 then q.blocks.tail else q.blocks).headD
           (freshBlock α N)).elems.getD (q.head % N) none,
       ⟨if q.head % N = 0 then q.blocks.tail else q.blocks, q.head + 1, q.tail,
        if q.head = q.tail_cache then q.tail else q.tail_cache⟩) := by
    simp only [dopop, hmask]
    rw [if_neg hne]
  rw [hdopop]
  by_cases hb : q.head % N = 0
  · -- the head cursor sits on a block boundary: advance head_block first
    rw [if_pos hb]
    have hdiv2 : q.head / N = (q.head - 1) / N + 1 := div_pred_succ h1 hb
    have hge2 : (q.head - 1) / N + 1 ≤ (q.tail - 1) / N := by
      have hm : q.head / N ≤ (q.tail - 1) / N :=
        Nat.div_le_div_right (by omega)
      omega
    obtain ⟨b0, rest0, hqb0⟩ : ∃ b0 rest0, q.blocks = b0 :: rest0 := by
      cases hqb : q.blocks with
      | nil =>
        rw [hqb] at hblen
        simp at hblen
      | cons a l => exact ⟨a, l, rfl⟩
    obtain ⟨b1, rest, hqb1⟩ : ∃ b1 rest, rest0 = b1 :: rest := by
      cases hqb : rest0 with
      | nil =>
        rw [hqb0, hqb] at hblen
        simp at hblen
        omega
      | cons a l => exact ⟨a, l, rfl⟩
    rw [hqb1] at hqb0
    have hv := hcont 0 v (by simp)
    simp only [chainRead, Nat.add_zero] at hv
    rw [hdiv2, Nat.add_sub_cancel_left, hb, hqb0] at hv
    simp only [List.getElem?_cons_succ, List.getElem?_cons_zero, Option.some_bind] at hv
    rw [hqb0, hb]
    refine ⟨rfl, by simpa using hv, ?_⟩
    rw [hqb0] at hblen
    simp only [List.length_cons] at hblen
    refine ⟨show 1 ≤ q.head + 1 by omega,
      show q.head + 1 ≤ (if q.head = q.tail_cache then q.tail else q.tail_cache) by omega,
      htcle, show q.head + 1 + vs.length = q.tail by omega, ?_, ?_, ?_, ?_⟩
    · show (rest.length + 1 : Nat) = (q.tail - 1) / N - (q.head + 1 - 1) / N + 1
      rw [Nat.add_sub_cancel, hdiv2]
      omega
    · intro x hx
      refine helen x ?_
      rw [hqb0]
      exact List.mem_cons_of_mem _ hx
    · exact nextOk_tail (hqb0 ▸ hnext)
    · intro j w hj
      have hold := hcont (j + 1) w (by simpa using hj)
      simp only [chainRead] at hold ⊢
      rw [Nat.add_sub_cancel]
      rw [show q.head + 1 + j = q.head + (j + 1) by omega]
      have hm : (q.head - 1) / N + 1 ≤ (q.head + (j + 1)) / N := by
        have : q.head / N ≤ (q.head + (j + 1)) / N :=
          Nat.div_le_div_right (by omega)
        omega
      have heq : (q.head + (j + 1)) / N - q.head / N + 1
          = (q.head + (j + 1)) / N - (q.head - 1) / N := by omega
      rw [hqb0, ← heq, List.getElem?_cons_succ] at hold
      exact hold
  · -- no boundary: read from the current head block
    rw [if_neg hb]
    have hdiv : (q.head - 1) / N = q.head / N := div_pred_eq h1 hb
    obtain ⟨b0, rest0, hqb0⟩ : ∃ b0 rest0, q.blocks = b0 :: rest0 := by
      cases hqb : q.blocks with
      | nil =>
        rw [hqb] at hblen
        simp at hblen
      | cons a l => exact ⟨a, l, rfl⟩
    have hv := hcont 0 v (by simp)
    simp only [chainRead, Nat.add_zero] at hv
    rw [← hdiv, Nat.sub_self, hqb0] at hv
    simp only [List.getElem?_cons_zero, Option.some_bind] at hv
    refine ⟨rfl, by rw [hqb0]; simpa using hv, ?_⟩
    refine ⟨show 1 ≤ q.head + 1 by omega,
      show q.head + 1 ≤ (if q.head = q.tail_cache then q.tail else q.tail_cache) by omega,
      htcle, show q.head + 1 + vs.length = q.tail by omega, ?_, helen, hnext, ?_⟩
    · show q.blocks.length = (q.tail - 1) / N - (q.head + 1 - 1) / N + 1
      rw [Nat.add_sub_cancel, ← hdiv]
      exact hblen
    · intro j w hj
      have hold := hcont (j + 1) w (by simpa using hj)
      simp only [chainRead] at hold ⊢
      rw [Nat.add_sub_cancel, ← hdiv]
      rw [show q.head + 1 + j = q.head + (j + 1) by omega]
      exact hold


/-- Pushing a batch of values appends them all to the logical content. -/
theorem inv_pushAll {N : Nat} (hNpos : 0 < N)
    (hmask : ∀ x : Nat, x &&& (N - 1) = x % N)
    {q : FifoQueue α} {vs : List α} (hq : Inv N q vs) (ws : List α) :
    Inv N (pushAll N q ws) (vs ++ ws) := by
  induction ws generalizing q vs with
  | nil => simpa using hq
  | cons w ws ih =>
    have hstep := ih (inv_push hNpos hmask hq w)
    rw [List.append_assoc] at hstep
    exact hstep

/-- Popping exactly as many times as there are elements succeeds each time,
delivers the elements oldest first, and leaves an empty queue satisfying
the invariant. -/
theorem popTimes_spec {N : Nat}
    (hmask : ∀ x : Nat, x &&& (N - 1) = x % N)
    {q : FifoQueue α} {vs : List α} (hq : Inv N q vs) :
    (popTimes N vs.length q).1 = vs.map (fun v => (true, some v)) ∧
      Inv N (popTimes N vs.length q).2 [] := by
  induction vs generalizing q with
  | nil => exact ⟨rfl, hq⟩
  | cons v vs ih =>
    obtain ⟨hf, hv, hinv⟩ := dopop_cons hmask hq
    obtain ⟨ih1, ih2⟩ := ih hinv
    simp only [List.length_cons, popTimes]
    refine ⟨?_, ih2⟩
    rw [hf, hv, ih1]
    simp

/-- The destroy drain loop, run with the fuel destroy gives it, terminates
via a failing pop and leaves an empty queue satisfying the invariant. -/
theorem inv_drainPop {N : Nat}
    (hmask : ∀ x : Nat, x &&& (N - 1) = x % N)
    {q : FifoQueue α} {vs : List α} (hq : Inv N q vs) :
    Inv N (drainPop N (vs.length + 1) q) [] := by
  induction vs generalizing q with
  | nil =>
    have h := dopop_nil hq
    simp only [drainPop, h]
    simpa using hq
  | cons v vs ih =>
    obtain ⟨hf, -, hinv⟩ := dopop_cons hmask hq
    have hstep : drainPop N (vs.length + 1 + 1) q
        = drainPop N (vs.length + 1) (dopop N q).2.2 := by
      simp only [drainPop, hf, if_true]
    simp only [List.length_cons]
    rw [hstep]
    exact ih hinv

/-- The block walk of destroy always reads the unwritten next pointer of
the final block of a chain in producer shape. -/
theorem freeWalk_none {l : List (Blk α)} (h : NextOk l) : freeWalk l = none := by
  induction l with
  | nil => exact absurd h (by simp [NextOk])
  | cons b bs ih =>
    cases bs with
    | nil =>
      have hb : b.nextWritten = false := h
      simp [freeWalk, hb]
    | cons c cs =>
      have h1 : b.nextWritten = true := h.1
      have h2 := ih h.2
      show (if b.nextWritten then (freeWalk (c :: cs)).map (fun n => n + 1) else none)
        = none
      simp [h1, h2]

/-- In every state satisfying the invariant, destroy's block walk reads
uninitialized memory: the drained chain still ends in a block whose next
pointer was never stored. -/
theorem destroy_undefined {N : Nat}
    (hmask : ∀ x : Nat, x &&& (N - 1) = x % N)
    {q : FifoQueue α} {vs : List α} (hq : Inv N q vs) :
    destroy N q = none := by
  have hfuel : q.tail - q.head + 1 = vs.length + 1 := by
    have := hq.len_eq
    omega
  rw [destroy, hfuel]
  exact freeWalk_none (inv_drainPop hmask hq).next_ok

/-- Every reachable state satisfies the representation invariant with its
logical content. -/
theorem inv_reachable {k : Nat} {q : FifoQueue α} {vs : List α}
    (h : Reachable α (2 ^ k) q vs) : Inv (2 ^ k) q vs := by
  induction h with
  | init => exact inv_init _
  | push v h ih => exact inv_push (Nat.two_pow_pos k) (mask_eq_mod k) ih v
  | pop h ih =>
    rename_i q0 vs0
    cases vs0 with
    | nil =>
      have hd := dopop_nil ih
      rw [hd]
      exact ih
    | cons v vs0 => exact (dopop_cons (mask_eq_mod k) ih).2.2
  | clear h ih => exact inv_init _


/-- Claim C1: sequential FIFO order.  Starting from any reachable empty
queue (in particular a freshly constructed one), pushing the values of
`vs` in order and then calling Pop `vs.length` times returns true each
time and delivers the values in exactly the pushed order, including when
the sequence spans block-capacity boundaries. -/
theorem fifo_order (k : Nat) (α : Type) (q : FifoQueue α) (vs : List α)
    (hr : Reachable α (2 ^ k) q []) :
    (popTimes (2 ^ k) vs.length (pushAll (2 ^ k) q vs)).1
      = vs.map (fun v => (true, some v)) := by
  have h1 := inv_pushAll (Nat.two_pow_pos k) (mask_eq_mod k) (inv_reachable hr) vs
  exact (popTimes_spec (mask_eq_mod k) (by simpa using h1)).1

/-- Claim C1 witness: pushing 10,20,30,40,50 onto a fresh queue of block
capacity 4 (crossing one block boundary) and popping five times delivers
them in order. -/
theorem fifo_order_witness :
    (popTimes (2 ^ 2) ([10, 20, 30, 40, 50] : List Nat).length
        (pushAll (2 ^ 2) (initState Nat (2 ^ 2)) [10, 20, 30, 40, 50])).1
      = ([10, 20, 30, 40, 50] : List Nat).map (fun v => (true, some v)) :=
  fifo_order 2 Nat (initState Nat (2 ^ 2)) [10, 20, 30, 40, 50]
    (@Reachable.init Nat (2 ^ 2))

/-- Claim C3: evaluation of the code at the failing input.  Block capacity
4; push five values onto a fresh queue, pop three times; the head cursor
now sits at the block boundary (head = 4).  The queue holds two elements,
and the next Pop delivers 40, but Front reads slot 0 of the old head block
- storage that was never constructed - instead of the oldest live
element. -/
theorem front_boundary_mismatch :
    Size true (popTimes (2 ^ 2) 3
        (pushAll (2 ^ 2) (initState Nat (2 ^ 2)) [10, 20, 30, 40, 50])).2 = 2 ∧
    (popTimes (2 ^ 2) 3
        (pushAll (2 ^ 2) (initState Nat (2 ^ 2)) [10, 20, 30, 40, 50])).2.head = 4 ∧
    Front (2 ^ 2) (popTimes (2 ^ 2) 3
        (pushAll (2 ^ 2) (initState Nat (2 ^ 2)) [10, 20, 30, 40, 50])).2 = none ∧
    (dopop (2 ^ 2) (popTimes (2 ^ 2) 3
        (pushAll (2 ^ 2) (initState Nat (2 ^ 2)) [10, 20, 30, 40, 50])).2).2.1
      = some 40 := by
  decide

/-- Claim C4 counterexample: in a fresh queue of block capacity 4 holding
the values pushed at absolute indices 1..4, the element pushed at index
i = 4 does not live floor((i-1)/N) = 0 hops from the first block at offset
i and (N-1) = 0 (that slot is never written); it lives floor(i/N) = 1 hop
away. -/
theorem slot_location_claim_false :
    chainRead (pushAll (2 ^ 2) (initState Nat (2 ^ 2)) [10, 20, 30, 40])
      ((4 - 1) / 2 ^ 2) (4 &&& (2 ^ 2 - 1)) = none ∧
    chainRead (pushAll (2 ^ 2) (initState Nat (2 ^ 2)) [10, 20, 30, 40])
      (4 / 2 ^ 2) (4 &&& (2 ^ 2 - 1)) = some 40 := by
  decide

/-- Claim C4 (amended): slot-location invariant.  In every reachable
state, the element at logical position j (pushed at absolute index
i = head + j, so head ≤ i < tail) is stored in the block reached by
following the next chain floor(i/N) - floor((head-1)/N) hops from
head_block, at in-block offset i and (N-1).  The hop count of the original
claim, floor((i-1)/N), is off by one whenever i is a multiple of N. -/
theorem slot_location (k : Nat) (α : Type) (q : FifoQueue α) (vs : List α)
    (hr : Reachable α (2 ^ k) q vs) (j : Nat) (v : α) (hj : vs[j]? = some v) :
    chainRead q ((q.head + j) / 2 ^ k - (q.head - 1) / 2 ^ k)
      ((q.head + j) &&& (2 ^ k - 1)) = some v := by
  rw [mask_eq_mod]
  exact (inv_reachable hr).content j v hj

/-- Claim C4 witness: the element 40 pushed at absolute index 4 = head + 3
of a fresh capacity-4 queue is found floor(4/4) - floor(0/4) = 1 hop from
the head block at offset 0. -/
theorem slot_location_witness :
    chainRead (pushAll (2 ^ 2) (initState Nat (2 ^ 2)) [10, 20, 30, 40])
      (((pushAll (2 ^ 2) (initState Nat (2 ^ 2)) [10, 20, 30, 40]).head + 3) / 2 ^ 2
        - ((pushAll (2 ^ 2) (initState Nat (2 ^ 2)) [10, 20, 30, 40]).head - 1) / 2 ^ 2)
      (((pushAll (2 ^ 2) (initState Nat (2 ^ 2)) [10, 20, 30, 40]).head + 3)
        &&& (2 ^ 2 - 1)) = some 40 :=
  slot_location 2 Nat _ _
    (Reachable.push 40 (Reachable.push 30 (Reachable.push 20
      (Reachable.push 10 (@Reachable.init Nat (2 ^ 2)))))) 3 40 (by decide)

/-- Claim C5: evaluation of the code at the failing input.  After the
destroy drain has popped all five elements (head = tail) exactly one block
remains, its next pointer was never stored (it is still the unset next of
the final tail block), and the block walk of destroy therefore reads
uninitialized memory (result none) instead of following a null-terminated
chain. -/
theorem destroy_reads_uninit_next :
    (drainPop (2 ^ 2) 6
        (pushAll (2 ^ 2) (initState Nat (2 ^ 2)) [10, 20, 30, 40, 50])).head
      = (drainPop (2 ^ 2) 6
        (pushAll (2 ^ 2) (initState Nat (2 ^ 2)) [10, 20, 30, 40, 50])).tail ∧
    (drainPop (2 ^ 2) 6
        (pushAll (2 ^ 2) (initState Nat (2 ^ 2)) [10, 20, 30, 40, 50])).blocks.length
      = 1 ∧
    ((drainPop (2 ^ 2) 6
        (pushAll (2 ^ 2) (initState Nat (2 ^ 2)) [10, 20, 30, 40, 50])).blocks.headD
          (freshBlock Nat (2 ^ 2))).nextWritten = false ∧
    destroy (2 ^ 2) (pushAll (2 ^ 2) (initState Nat (2 ^ 2)) [10, 20, 30, 40, 50])
      = none := by
  decide

/-- Claim C6: Pop on an empty reachable queue (head = tail) is a reporting
no-op: both Pop() and Pop(out) return false, nothing is written to the out
parameter (the delivered value is none), and the state - head, head_block
chain, tail_cache and all slots - is returned unchanged. -/
theorem pop_empty_noop (k : Nat) (α : Type) (q : FifoQueue α) (vs : List α)
    (hr : Reachable α (2 ^ k) q vs) (h : q.head = q.tail) :
    Pop (2 ^ k) q = (false, q) ∧ PopOut (2 ^ k) q = (false, none, q) := by
  have hinv := inv_reachable hr
  have hvs : vs = [] := by
    refine List.eq_nil_of_length_eq_zero ?_
    have := hinv.len_eq
    omega
  subst hvs
  have hd := dopop_nil hinv
  exact ⟨by simp [Pop, hd], by simp [PopOut, hd]⟩

/-- Claim C6 witness: popping the freshly constructed capacity-4 queue
reports empty and returns the state unchanged. -/
theorem pop_empty_noop_witness :
    Pop (2 ^ 2) (initState Nat (2 ^ 2)) = (false, initState Nat (2 ^ 2)) ∧
    PopOut (2 ^ 2) (initState Nat (2 ^ 2)) = (false, none, initState Nat (2 ^ 2)) :=
  pop_empty_noop 2 Nat (initState Nat (2 ^ 2)) [] (@Reachable.init Nat (2 ^ 2)) rfl

/-- Claim C7 counterexample: on a concrete queue holding three elements,
Size with the flag set (the default NeedSize = true) is exactly the cursor
difference tail - head and coincides with Size with the flag cleared -
there is no dedicated size counter, so the flag does not select a distinct
implementation. -/
theorem size_flag_no_counter :
    Size true (pushAll (2 ^ 2) (initState Nat (2 ^ 2)) [10, 20, 30])
      = (pushAll (2 ^ 2) (initState Nat (2 ^ 2)) [10, 20, 30]).tail
        - (pushAll (2 ^ 2) (initState Nat (2 ^ 2)) [10, 20, 30]).head ∧
    Size true (pushAll (2 ^ 2) (initState Nat (2 ^ 2)) [10, 20, 30])
      = Size false (pushAll (2 ^ 2) (initState Nat (2 ^ 2)) [10, 20, 30]) := by
  decide

/-- Claim C7 (amended): the NeedSize template parameter is declared by the
class but never referenced in its body; for either flag value Size() is
computed as the cursor difference tail - head, and the two instantiations
agree on every state. -/
theorem size_flag_irrelevant (α : Type) (needSize : Bool) (q : FifoQueue α) :
    Size needSize q = q.tail - q.head ∧ Size needSize q = Size (!needSize) q :=
  ⟨rfl, rfl⟩

/-- Claim C8: size consistency.  Pushing k values onto any reachable empty
queue with no intervening pops makes Size() return exactly k, and after
popping all k values Empty() returns true. -/
theorem size_consistency (k : Nat) (α : Type) (q : FifoQueue α) (vs : List α)
    (hr : Reachable α (2 ^ k) q []) :
    Size true (pushAll (2 ^ k) q vs) = vs.length ∧
    Empty true (popTimes (2 ^ k) vs.length (pushAll (2 ^ k) q vs)).2 = true := by
  have h1 : Inv (2 ^ k) (pushAll (2 ^ k) q vs) vs := by
    simpa using inv_pushAll (Nat.two_pow_pos k) (mask_eq_mod k) (inv_reachable hr) vs
  constructor
  · have := h1.len_eq
    simp only [Size]
    omega
  · have h2 := (popTimes_spec (mask_eq_mod k) h1).2
    have hlen2 := h2.len_eq
    simp only [List.length_nil, Nat.add_zero] at hlen2
    simp only [Empty, Size, beq_iff_eq]
    omega

/-- Claim C8 witness: after pushing 1,2,3 onto a fresh capacity-4 queue
Size is 3, and after popping all three the queue is empty. -/
theorem size_consistency_witness :
    Size true (pushAll (2 ^ 2) (initState Nat (2 ^ 2)) [1, 2, 3])
      = ([1, 2, 3] : List Nat).length ∧
    Empty true (popTimes (2 ^ 2) ([1, 2, 3] : List Nat).length
      (pushAll (2 ^ 2) (initState Nat (2 ^ 2)) [1, 2, 3])).2 = true :=
  size_consistency 2 Nat (initState Nat (2 ^ 2)) [1, 2, 3]
    (@Reachable.init Nat (2 ^ 2))

/-- Claim C9: evaluation of the code at the failing input.  Clear on a
queue holding three elements rebuilds exactly the freshly constructed
state (empty, head = tail = 1), but the destroy it runs first performs an
uninitialized read of the final block's never-stored next pointer (walk
outcome none), so the C++ execution of Clear is undefined before init
runs. -/
theorem clear_walk_uninit_and_reset :
    (Clear (2 ^ 2) (pushAll (2 ^ 2) (initState Nat (2 ^ 2)) [10, 20, 30])).1
      = none ∧
    (Clear (2 ^ 2) (pushAll (2 ^ 2) (initState Nat (2 ^ 2)) [10, 20, 30])).2
      = initState Nat (2 ^ 2) ∧
    Empty true (Clear (2 ^ 2)
      (pushAll (2 ^ 2) (initState Nat (2 ^ 2)) [10, 20, 30])).2 = true ∧
    (Clear (2 ^ 2) (pushAll (2 ^ 2) (initState Nat (2 ^ 2)) [10, 20, 30])).2.head
      = 1 ∧
    (Clear (2 ^ 2) (pushAll (2 ^ 2) (initState Nat (2 ^ 2)) [10, 20, 30])).2.tail
      = 1 := by
  decide

/-- Claim C10: consumer-cache invariant.  In every reachable queue state
head ≤ tail_cache ≤ tail (hence head ≤ tail), so the fast-path emptiness
test comparing head against the cached tail_cache never claims an element
exists that was not pushed. -/
theorem cache_bounds (k : Nat) (α : Type) (q : FifoQueue α) (vs : List α)
    (hr : Reachable α (2 ^ k) q vs) :
    q.head ≤ q.tail_cache ∧ q.tail_cache ≤ q.tail ∧ q.head ≤ q.tail := by
  have h := inv_reachable hr
  refine ⟨h.head_le_cache, h.cache_le_tail, ?_⟩
  have := h.len_eq
  omega

/-- Claim C10 witness: the invariant holds in the concrete state reached
by one push and one pop on a fresh capacity-4 queue. -/
theorem cache_bounds_witness :
    (dopop (2 ^ 2) (Push (2 ^ 2) (5 : Nat) (initState Nat (2 ^ 2)))).2.2.head
      ≤ (dopop (2 ^ 2) (Push (2 ^ 2) (5 : Nat) (initState Nat (2 ^ 2)))).2.2.tail_cache ∧
    (dopop (2 ^ 2) (Push (2 ^ 2) (5 : Nat) (initState Nat (2 ^ 2)))).2.2.tail_cache
      ≤ (dopop (2 ^ 2) (Push (2 ^ 2) (5 : Nat) (initState Nat (2 ^ 2)))).2.2.tail ∧
    (dopop (2 ^ 2) (Push (2 ^ 2) (5 : Nat) (initState Nat (2 ^ 2)))).2.2.head
      ≤ (dopop (2 ^ 2) (Push (2 ^ 2) (5 : Nat) (initState Nat (2 ^ 2)))).2.2.tail :=
  cache_bounds 2 Nat _ _
    (Reachable.pop (Reachable.push 5 (@Reachable.init Nat (2 ^ 2))))

end Common
